import Mathlib

/-!
# FastCGI gateway and OAuth state — verification of the specification

Shallow embedding of `gluon/contrib/gateways/fcgi.py` (FastCGI protocol
engine: record framing, name/value codec, connection buffering, request
finishing and error handling) and of the state-token functions of
`gluon/contrib/login_methods/oauth20_account.py`.

Python byte strings are modelled as `List Nat` (one entry per byte);
Python text strings as Lean `String`. Python dictionaries (insertion
ordered, last-write-wins on duplicate keys) are modelled as association
lists with an in-place update operation `dictSet`. Fallible decoding is
modelled with `Except`.
-/

namespace Fcgi

/-! ## Protocol constants (from the source's constant block) -/

def FCGI_VERSION_1 : Nat := 1

def FCGI_BEGIN_REQUEST : Nat := 1
def FCGI_ABORT_REQUEST : Nat := 2
def FCGI_END_REQUEST : Nat := 3
def FCGI_PARAMS : Nat := 4
def FCGI_STDIN : Nat := 5
def FCGI_STDOUT : Nat := 6
def FCGI_STDERR : Nat := 7
def FCGI_DATA : Nat := 8
def FCGI_GET_VALUES : Nat := 9
def FCGI_GET_VALUES_RESULT : Nat := 10

def FCGI_RESPONDER : Nat := 1
def FCGI_AUTHORIZER : Nat := 2
def FCGI_FILTER : Nat := 3

/-- Modelled from the spec: the source uses `FCGI_REQUEST_COMPLETE` in
`_finishRequest` without declaring it; the FastCGI protocol status
`REQUEST_COMPLETE` is 0. -/
def FCGI_REQUEST_COMPLETE : Nat := 0

/-- Protocol-level decoding failures (spec section 7 taxonomy; the
source's `ProtocolError`). -/
inductive ProtocolError where
  | TruncatedStream
  | BadHeader
deriving DecidableEq

/-! ## Record (source: `class Record`, `__init__`) -/

/-- A FastCGI record as held in memory by the source's `Record` class. -/
structure Record where
  version : Nat
  type : Nat
  requestId : Nat
  content : List Nat
  contentLength : Nat
deriving DecidableEq

/-- The source's `Record.__init__(self, type, requestId, content='')`:
sets `version = FCGI_VERSION_1` and `contentLength = len(content)`. -/
def mkRecord (type requestId : Nat) (content : List Nat) : Record :=
  { version := FCGI_VERSION_1
    type := type
    requestId := requestId
    content := content
    contentLength := content.length }

/-! ## Connection (source: `class Connection`) -/

/-- The source's `Connection` buffering state. The socket and peer
address fields carry no protocol state and are omitted; `writeBuffer`
models `_writeBuffer` (a list of buffered chunks) and `writeBufferSize`
models `_writeBufferSize`. -/
structure Connection where
  writeBuffer : List (List Nat)
  writeBufferSize : Nat
deriving DecidableEq

/-- `Connection.__init__`: empty write buffer, size zero. -/
def Connection.init : Connection :=
  { writeBuffer := [], writeBufferSize := 0 }

/-- The source's `Connection.write(self, data)`: appends `data` to
`_writeBuffer` and adds `len(data)` to `_writeBufferSize`. -/
def Connection.write (c : Connection) (data : List Nat) : Connection :=
  { writeBuffer := c.writeBuffer ++ [data]
    writeBufferSize := c.writeBufferSize + data.length }

/-- The source's `Connection.flush(self)`: if the buffer is non-empty,
joins it, sends it on the socket, and resets buffer and size. The bytes
handed to `sendall` are returned as the second component. -/
def Connection.flush (c : Connection) : Connection × List Nat :=
  if c.writeBuffer = [] then (c, [])
  else ({ writeBuffer := [], writeBufferSize := 0 }, c.writeBuffer.flatten)

/-- The buffer-size bookkeeping invariant of `Connection`:
`_writeBufferSize` equals the total length of the buffered chunks. -/
def Connection.sizeInv (c : Connection) : Prop :=
  c.writeBufferSize = (c.writeBuffer.map List.length).sum

instance (c : Connection) : Decidable c.sizeInv := by
  unfold Connection.sizeInv; infer_instance

end Fcgi

open Fcgi

/-- C8: every record constructed via `Record(type, requestId, content)`
has `version == FCGI_VERSION_1` and `contentLength == len(content)`. -/
theorem c8_mkRecord_invariant (type requestId : Nat) (content : List Nat) :
    (mkRecord type requestId content).version = FCGI_VERSION_1 ∧
    (mkRecord type requestId content).contentLength = content.length :=
  ⟨rfl, rfl⟩

/-- C6 counterexample: calling the source's `Connection.write` with a
65536-byte payload enqueues it as a single unsplit chunk, so the claim
that payloads longer than 65535 bytes are split into more than one
record before being enqueued is false: the buffer holds exactly one
chunk and that chunk is longer than 65535 bytes. -/
theorem c6_counterexample :
    (Connection.init.write (List.replicate 65536 0)).writeBuffer
        = [List.replicate 65536 0] ∧
    (List.replicate 65536 0).length > 65535 := by
  refine ⟨rfl, ?_⟩
  rw [List.length_replicate]
  omega

/-- C6 amended: the source's `Connection.write(data)` performs no
splitting and no record encoding: it appends the payload as exactly one
chunk to the outbound buffer, whatever its length, and increases
`_writeBufferSize` by the payload's length. -/
theorem c6_write_appends_single_chunk (c : Connection) (data : List Nat) :
    (c.write data).writeBuffer = c.writeBuffer ++ [data] ∧
    (c.write data).writeBuffer.length = c.writeBuffer.length + 1 ∧
    (c.write data).writeBufferSize = c.writeBufferSize + data.length := by
  refine ⟨rfl, ?_, rfl⟩
  simp [Connection.write]

/-- C9: the invariant `_writeBufferSize = Σ length(chunk)` holds for a
freshly constructed connection, is preserved by `write` and by `flush`,
and after `flush` returns the buffer is empty with size zero. -/
theorem c9_buffer_size_invariant :
    Connection.init.sizeInv ∧
    (∀ (c : Connection) (data : List Nat), c.sizeInv → (c.write data).sizeInv) ∧
    (∀ c : Connection, c.sizeInv →
      (c.flush.1.sizeInv ∧ c.flush.1.writeBuffer = [] ∧ c.flush.1.writeBufferSize = 0)) := by
  refine ⟨rfl, ?_, ?_⟩
  · intro c data h
    simp [Connection.sizeInv, Connection.write] at h ⊢
    omega
  · intro c h
    unfold Connection.flush
    by_cases hbuf : c.writeBuffer = []
    · rw [if_pos hbuf]
      refine ⟨h, hbuf, ?_⟩
      simp [Connection.sizeInv, hbuf] at h
      exact h
    · rw [if_neg hbuf]
      exact ⟨rfl, rfl, rfl⟩

/-- C9 witness: the invariant theorem applied to the concrete connection
obtained by writing `[1, 2, 3]` into a fresh connection and flushing. -/
theorem c9_buffer_size_invariant_witness :
    ((Connection.init.write [1, 2, 3]).flush).1.writeBuffer = [] ∧
    ((Connection.init.write [1, 2, 3]).flush).1.writeBufferSize = 0 :=
  ⟨(c9_buffer_size_invariant.2.2 (Connection.init.write [1, 2, 3])
      (c9_buffer_size_invariant.2.1 Connection.init [1, 2, 3]
        c9_buffer_size_invariant.1)).2.1,
   (c9_buffer_size_invariant.2.2 (Connection.init.write [1, 2, 3])
      (c9_buffer_size_invariant.2.1 Connection.init [1, 2, 3]
        c9_buffer_size_invariant.1)).2.2⟩

namespace Fcgi

/-! ## Request (source: `class Request`) and response finishing -/

/-- The source's `Request.__init__(self, conn, reqId)` state: request id,
role, flags, aborted flag, and the four `StringIO` buffers (modelled by
their accumulated `String` contents; `getvalue()` is field access). The
`conn` back-reference carries no per-request state and is omitted. -/
structure Request where
  requestId : Nat
  role : Option Nat
  flags : Nat
  aborted : Bool
  stdin : String
  stdout : String
  stderr : String
  data : String
deriving DecidableEq

/-- Bytes of a Python (byte) string: one entry per character code. -/
def strBytes (s : String) : List Nat :=
  s.data.map Char.toNat

/-- One record as handed to the source's `_sendRecord(type, requestId,
content)`. -/
structure SentRecord where
  type : Nat
  requestId : Nat
  content : List Nat
deriving DecidableEq

/-- Appending one `_sendRecord` call to the trace of sent records. -/
def sendRecord (sent : List SentRecord) (type requestId : Nat) (content : List Nat) :
    List SentRecord :=
  sent ++ [{ type := type, requestId := requestId, content := content }]

/-- The source's `struct.pack('!BBxxxxxx', appStatus, protocolStatus)`:
two status bytes followed by six zero pad bytes. -/
def packEndRequest (appStatus protocolStatus : Nat) : List Nat :=
  [appStatus % 256, protocolStatus % 256, 0, 0, 0, 0, 0, 0]

/-- The source's `_finishRequest(self, req)`, as the sequence of records
it sends: stdout data (only if non-empty), the zero-length STDOUT
terminator, stderr data with its terminator (only if stderr is
non-empty), then the END_REQUEST record. -/
def finishRequest (req : Request) : List SentRecord :=
  let stdout_data := strBytes req.stdout
  let s1 := if stdout_data = [] then []
            else sendRecord [] FCGI_STDOUT req.requestId stdout_data
  let s2 := sendRecord s1 FCGI_STDOUT req.requestId []
  let stderr_data := strBytes req.stderr
  let s3 := if stderr_data = [] then s2
            else sendRecord (sendRecord s2 FCGI_STDERR req.requestId stderr_data)
                   FCGI_STDERR req.requestId []
  sendRecord s3 FCGI_END_REQUEST req.requestId
    (packEndRequest 0 FCGI_REQUEST_COMPLETE)

/-- Stream content framed into records of one type, as this engine
frames it: no record for empty content, one record otherwise. -/
def frameStream (type requestId : Nat) (content : List Nat) : List SentRecord :=
  if content = [] then []
  else [{ type := type, requestId := requestId, content := content }]

/-! ## Application error handling (source: `_handleApplicationError`) -/

/-- The source's `_handleApplicationError(self, req, error)`: writes the
diagnostic line to the request's stderr buffer, then writes the 500
status response to the request's stdout buffer — unconditionally, with
no check of whether output had already been started. `error` stands for
`str(error)`. -/
def handleApplicationError (req : Request) (error : String) : Request :=
  { req with
    stderr := req.stderr ++ ("Application error: " ++ error ++ "\n")
    stdout := req.stdout ++ "Status: 500 Internal Server Error\r\n\r\n" }

end Fcgi

/-- C1: for every request finished normally, `_finishRequest` emits, in
this order, the stdout content framed into STDOUT records, a zero-length
STDOUT record, stderr content framed into STDERR records with a
zero-length STDERR terminator only when stderr is non-empty, and finally
a single END_REQUEST record whose content packs application exit status
0 with protocol status REQUEST_COMPLETE; the trace contains exactly one
END_REQUEST record. -/
theorem c1_finishRequest_record_order (req : Request) :
    finishRequest req =
      frameStream FCGI_STDOUT req.requestId (strBytes req.stdout)
        ++ [{ type := FCGI_STDOUT, requestId := req.requestId, content := [] }]
        ++ (if strBytes req.stderr = [] then []
            else frameStream FCGI_STDERR req.requestId (strBytes req.stderr)
              ++ [{ type := FCGI_STDERR, requestId := req.requestId, content := [] }])
        ++ [{ type := FCGI_END_REQUEST, requestId := req.requestId,
              content := packEndRequest 0 FCGI_REQUEST_COMPLETE }] ∧
    (finishRequest req).filter
        (fun r => decide (r.type = FCGI_END_REQUEST))
      = [{ type := FCGI_END_REQUEST, requestId := req.requestId,
           content := packEndRequest 0 FCGI_REQUEST_COMPLETE }] := by
  constructor
  · unfold finishRequest frameStream sendRecord
    by_cases hout : strBytes req.stdout = [] <;>
      by_cases herr : strBytes req.stderr = [] <;>
        simp [hout, herr]
  · unfold finishRequest sendRecord
    by_cases hout : strBytes req.stdout = [] <;>
      by_cases herr : strBytes req.stderr = [] <;>
        simp [hout, herr, FCGI_STDOUT, FCGI_STDERR, FCGI_END_REQUEST]

/-- C7 counterexample: a request whose stdout already holds output
("X", so the response had been started) still gets the 500 status
response appended to its stdout by `_handleApplicationError` — the
source performs no response-started check, so the claim that the 500
response is substituted only if no output had been started is false. -/
theorem c7_counterexample :
    ({ requestId := 1, role := none, flags := 0, aborted := false,
       stdin := "", stdout := "X", stderr := "", data := "" } : Request).stdout ≠ "" ∧
    (handleApplicationError
      { requestId := 1, role := none, flags := 0, aborted := false,
        stdin := "", stdout := "X", stderr := "", data := "" } "boom").stdout
      = "XStatus: 500 Internal Server Error\r\n\r\n" := by
  exact ⟨by decide, rfl⟩

/-- C7 amended: for every request whose application callable fails, the
adapter appends the diagnostic line to the request's stderr buffer and
unconditionally appends the 500 status response to the request's stdout
buffer, whether or not response output had already been started; all
other request fields are unchanged. -/
theorem c7_handleApplicationError (req : Request) (error : String) :
    (handleApplicationError req error).stderr
        = req.stderr ++ ("Application error: " ++ error ++ "\n") ∧
    (handleApplicationError req error).stdout
        = req.stdout ++ "Status: 500 Internal Server Error\r\n\r\n" ∧
    (handleApplicationError req error).requestId = req.requestId ∧
    (handleApplicationError req error).stdin = req.stdin :=
  ⟨rfl, rfl, rfl, rfl⟩

namespace Fcgi

/-! ## Record wire codec

Modelled from the spec: the source under `src/` declares only the
`Record` class; the wire encoder/decoder it is used with is described by
the spec's section 6 wire format (header `version(1) type(1)
requestId(2, big-endian) contentLength(2, big-endian) paddingLength(1)
reserved(1)`, then content and padding) and section 4.1 (padding to the
next multiple of 8; content above 65535 bytes chunked by the caller into
multiple records of the same type and request id). -/

/-- Padding bytes needed to bring `n` content bytes to a multiple of 8. -/
def padLength (n : Nat) : Nat :=
  (8 - n % 8) % 8

/-- Modelled from the spec: encode one record as header, content and
zero padding (spec section 6 header layout). -/
def encodeRecord (r : Record) : List Nat :=
  [r.version % 256, r.type % 256,
   (r.requestId / 256) % 256, r.requestId % 256,
   (r.contentLength / 256) % 256, r.contentLength % 256,
   padLength r.contentLength, 0]
    ++ r.content ++ List.replicate (padLength r.contentLength) 0

/-- Modelled from the spec: decode one record from the front of a byte
stream, returning it with the unconsumed tail; `BadHeader` on a version
mismatch, `TruncatedStream` when the stream ends before the declared
content and padding. -/
def decodeRecord (bytes : List Nat) : Except ProtocolError (Record × List Nat) :=
  match bytes with
  | v :: t :: r1 :: r0 :: c1 :: c0 :: p :: _ :: rest =>
    if v ≠ FCGI_VERSION_1 then .error .BadHeader
    else if rest.length < (c1 * 256 + c0) + p then .error .TruncatedStream
    else .ok ({ version := v, type := t, requestId := r1 * 256 + r0,
                content := rest.take (c1 * 256 + c0),
                contentLength := c1 * 256 + c0 },
              (rest.drop (c1 * 256 + c0)).drop p)
  | _ => .error .TruncatedStream

/-- A record the engine considers valid (spec section 3 data model):
supported version, byte-sized type, 16-bit request id, content of at
most 65535 bytes with a consistent `contentLength`. -/
def Record.valid (r : Record) : Prop :=
  r.version = FCGI_VERSION_1 ∧ r.type < 256 ∧ r.requestId < 65536 ∧
    r.contentLength = r.content.length ∧ r.content.length ≤ 65535

instance (r : Record) : Decidable r.valid := by
  unfold Record.valid; infer_instance

/-- Chunking with explicit fuel (65535-byte chunks); the fuel is an
upper bound on the number of chunks, never reached in use. -/
def chunkGo : Nat → List Nat → List (List Nat)
  | 0, _ => []
  | _, [] => []
  | fuel + 1, l@(_ :: _) => l.take 65535 :: chunkGo fuel (l.drop 65535)

/-- Modelled from the spec: content longer than 65535 bytes is split by
the caller into chunks of at most 65535 bytes. -/
def chunkContent (l : List Nat) : List (List Nat) :=
  chunkGo l.length l

/-- Modelled from the spec: a whole payload framed as consecutive
records of one type and request id, each built by `Record.__init__`. -/
def encodeChunkedPayload (type requestId : Nat) (payload : List Nat) : List Nat :=
  ((chunkContent payload).map (fun c => encodeRecord (mkRecord type requestId c))).flatten

/-- Decode consecutive records until the stream is exhausted, with fuel
bounding the number of records (one byte of input per record is ample). -/
def decodeRecords : Nat → List Nat → Except ProtocolError (List Record)
  | 0, bytes => if bytes = [] then .ok [] else .error .TruncatedStream
  | fuel + 1, bytes =>
    if bytes = [] then .ok []
    else
      match decodeRecord bytes with
      | .error e => .error e
      | .ok (r, rest) =>
        match decodeRecords fuel rest with
        | .error e => .error e
        | .ok rs => .ok (r :: rs)

/-- Decode a complete stream of records. -/
def decodeAllRecords (bytes : List Nat) : Except ProtocolError (List Record) :=
  decodeRecords bytes.length bytes

/-- Reassemble a chunked payload: decode all records, check they all
carry the expected type and request id, and concatenate their
contents. -/
def decodeChunkedPayload (type requestId : Nat) (bytes : List Nat) :
    Except ProtocolError (List Nat) :=
  match decodeAllRecords bytes with
  | .error e => .error e
  | .ok rs =>
    if rs.all (fun r => decide (r.type = type ∧ r.requestId = requestId))
    then .ok ((rs.map Record.content).flatten)
    else .error .BadHeader

theorem decodeRecord_encodeRecord (r : Record) (hr : r.valid) (extra : List Nat) :
    decodeRecord (encodeRecord r ++ extra) = .ok (r, extra) := by
  obtain ⟨hver, hty, hrid, hclen, hbound⟩ := hr
  obtain ⟨ver, ty, rid, cont, clen⟩ := r
  simp only at hver hty hrid hclen hbound
  subst hver hclen
  have hcl : cont.length / 256 % 256 * 256 + cont.length % 256 = cont.length := by omega
  have hreq : rid / 256 % 256 * 256 + rid % 256 = rid := by omega
  unfold encodeRecord decodeRecord
  simp only [List.append_assoc, List.cons_append, List.nil_append]
  rw [hcl, hreq, Nat.mod_eq_of_lt hty]
  rw [if_neg (by decide)]
  rw [if_neg (by simp only [List.length_append, List.length_replicate]; omega)]
  rw [List.take_left, List.drop_left, List.drop_left' (List.length_replicate _ _)]
  exact rfl

theorem encodeRecord_ne_nil (r : Record) : encodeRecord r ≠ [] := by
  simp [encodeRecord]

theorem chunkGo_spec (fuel : Nat) :
    ∀ l : List Nat, l.length ≤ fuel →
      (chunkGo fuel l).flatten = l ∧
        ∀ c ∈ chunkGo fuel l, c.length ≤ 65535 := by
  induction fuel with
  | zero =>
    intro l hl
    have : l = [] := List.eq_nil_of_length_eq_zero (by omega)
    subst this
    simp [chunkGo]
  | succ fuel ih =>
    intro l hl
    match l with
    | [] => simp [chunkGo]
    | x :: xs =>
      have hrec := ih ((x :: xs).drop 65535)
        (by simp only [List.length_drop, List.length_cons] at hl ⊢; omega)
      constructor
      · simp only [chunkGo, List.flatten_cons, hrec.1]
        exact List.take_append_drop _ _
      · intro c hc
        simp only [chunkGo, List.mem_cons] at hc
        rcases hc with hc | hc
        · subst hc
          simp
        · exact hrec.2 c hc

theorem decodeRecords_encode (recs : List Record) :
    ∀ fuel : Nat, (∀ r ∈ recs, r.valid) → recs.length ≤ fuel →
      decodeRecords fuel ((recs.map encodeRecord).flatten) = .ok recs := by
  induction recs with
  | nil =>
    intro fuel _ _
    cases fuel <;> simp [decodeRecords]
  | cons r rs ih =>
    intro fuel hvalid hfuel
    obtain ⟨fuel, rfl⟩ : ∃ f, fuel = f + 1 := ⟨fuel - 1, by simp at hfuel; omega⟩
    have hne : encodeRecord r ++ (rs.map encodeRecord).flatten ≠ [] := fun h =>
      encodeRecord_ne_nil r (List.append_eq_nil.mp h).1
    have hr := decodeRecord_encodeRecord r (hvalid r (by simp))
      ((rs.map encodeRecord).flatten)
    have hrs := ih fuel (fun q hq => hvalid q (by simp [hq])) (by simpa using hfuel)
    simp only [List.map_cons, List.flatten_cons, decodeRecords, if_neg hne, hr, hrs]

theorem flatten_encode_length_ge (recs : List Record) :
    recs.length ≤ ((recs.map encodeRecord).flatten).length := by
  induction recs with
  | nil => simp
  | cons r rs ih =>
    simp only [List.map_cons, List.flatten_cons, List.length_append, List.length_cons]
    have : 1 ≤ (encodeRecord r).length := by
      simp [encodeRecord]
    omega

end Fcgi

/-- C3: decoding the encoding round-trips. For every valid record,
decoding its single-record encoding yields the record back with nothing
left over; and for every payload (in particular those above 65535 bytes,
which are chunked into several records), decoding the chunked encoding
under the given type and request id reassembles exactly the original
payload. -/
theorem c3_record_roundtrip (r : Record) (hr : r.valid)
    (type requestId : Nat) (payload : List Nat)
    (htype : type < 256) (hrid : requestId < 65536) :
    decodeRecord (encodeRecord r) = .ok (r, []) ∧
    decodeChunkedPayload type requestId (encodeChunkedPayload type requestId payload)
      = .ok payload := by
  constructor
  · have h := decodeRecord_encodeRecord r hr []
    simpa using h
  · have hchunk := chunkGo_spec payload.length payload (le_refl _)
    have hvalid : ∀ q ∈ (chunkContent payload).map
        (fun c => mkRecord type requestId c), q.valid := by
      intro q hq
      simp only [List.mem_map] at hq
      obtain ⟨c, hc, rfl⟩ := hq
      exact ⟨rfl, htype, hrid, rfl, hchunk.2 c hc⟩
    have hdec : decodeAllRecords (encodeChunkedPayload type requestId payload)
        = .ok ((chunkContent payload).map (fun c => mkRecord type requestId c)) := by
      unfold decodeAllRecords encodeChunkedPayload
      rw [show ((chunkContent payload).map
            (fun c => encodeRecord (mkRecord type requestId c)))
          = (((chunkContent payload).map (fun c => mkRecord type requestId c)).map
              encodeRecord) by simp]
      exact decodeRecords_encode _ _ hvalid (flatten_encode_length_ge _)
    have hall : (((chunkContent payload).map (fun c => mkRecord type requestId c)).all
        (fun r => decide (r.type = type ∧ r.requestId = requestId))) = true := by
      rw [List.all_eq_true]
      intro q hq
      simp only [List.mem_map] at hq
      obtain ⟨c, hc, rfl⟩ := hq
      simp [mkRecord]
    unfold decodeChunkedPayload
    rw [hdec]
    simp only [hall, if_true]
    rw [show (((chunkContent payload).map (fun c => mkRecord type requestId c)).map
          Record.content) = chunkContent payload by simp [mkRecord, Function.comp_def]]
    rw [show chunkContent payload = chunkGo payload.length payload from rfl, hchunk.1]

/-- C3 witness: the round-trip theorem applied to the concrete record
`Record(FCGI_STDOUT, 1, [10, 20])` and to the concrete payload
`[1, 2, 3]`. -/
theorem c3_record_roundtrip_witness :
    decodeRecord (encodeRecord (mkRecord 6 1 [10, 20])) = .ok (mkRecord 6 1 [10, 20], []) ∧
    decodeChunkedPayload 6 1 (encodeChunkedPayload 6 1 [1, 2, 3]) = .ok [1, 2, 3] :=
  c3_record_roundtrip (mkRecord 6 1 [10, 20]) (by decide) 6 1 [1, 2, 3]
    (by decide) (by decide)

namespace Fcgi

/-! ## Name/value pair codec (source: `_decodeParams`)

The source's `_decodeParams` loops reading a name length and a value
length, stops on the (0, 0) length pair, and stores each pair in a
Python dict (`params[name] = value`, insertion ordered, last write
wins). `_readLengths` and the matching encoder are not part of the
source under `src/` and are modelled from the spec: a length is one
byte when below 128, otherwise four bytes big-endian with the high bit
of the first byte set and masked off on read; the stream fails with
`ProtocolError(TruncatedStream)` if it ends mid-pair. -/

/-- An insertion-ordered mapping of byte-string names to byte-string
values: the model of a Python dict. -/
abbrev Params := List (List Nat × List Nat)

/-- Python dict assignment `d[k] = v`: updates the value in place if the
key is present (keeping its position), otherwise appends the pair. -/
def dictSet : Params → List Nat → List Nat → Params
  | [], k, v => [(k, v)]
  | (k', v') :: rest, k, v =>
    if k' = k then (k', v) :: rest else (k', v') :: dictSet rest k v

/-- Python dict lookup `d.get(name)`. -/
def dictGet : Params → List Nat → Option (List Nat)
  | [], _ => none
  | (k, v) :: rest, name => if k = name then some v else dictGet rest name

/-- Modelled from the spec: one FastCGI variable-length length field —
one byte when the high bit is clear, else four bytes big-endian with
the high bit masked off; `TruncatedStream` if the stream ends first. -/
def readLength : List Nat → Except ProtocolError (Nat × List Nat)
  | [] => .error .TruncatedStream
  | b :: rest =>
    if b < 128 then .ok (b, rest)
    else
      match rest with
      | b1 :: b2 :: b3 :: rest2 =>
        .ok (b % 128 * 16777216 + b1 * 65536 + b2 * 256 + b3, rest2)
      | _ => .error .TruncatedStream

/-- Modelled from the spec: the source's `_readLengths(stream)` — a name
length followed by a value length. -/
def readLengths (bytes : List Nat) : Except ProtocolError (Nat × Nat × List Nat) :=
  match readLength bytes with
  | .error e => .error e
  | .ok (nameLen, rest) =>
    match readLength rest with
    | .error e => .error e
    | .ok (valueLen, rest2) => .ok (nameLen, valueLen, rest2)

/-- The source's `_decodeParams` loop body, with fuel bounding the
number of iterations (each iteration consumes at least two bytes, so
the fuel `decodeParams` supplies is never exhausted). `stream.read(n)`
returns at most `n` bytes (`take`/`drop`), exactly as Python's short
read does. -/
def decodeParamsGo : Nat → List Nat → Params → Except ProtocolError Params
  | 0, _, _ => .error .TruncatedStream
  | fuel + 1, bytes, params =>
    match readLengths bytes with
    | .error e => .error e
    | .ok (nameLen, valueLen, rest) =>
      if nameLen = 0 ∧ valueLen = 0 then .ok params
      else
        decodeParamsGo fuel ((rest.drop nameLen).drop valueLen)
          (dictSet params (rest.take nameLen) ((rest.drop nameLen).take valueLen))

/-- The source's `_decodeParams(self, stream)`: decode name/value pairs
into a fresh dict until the terminating (0, 0) length pair. -/
def decodeParams (bytes : List Nat) : Except ProtocolError Params :=
  decodeParamsGo (bytes.length + 1) bytes []

/-- Modelled from the spec: encode one length field (valid below
2^31). -/
def encodeLength (n : Nat) : List Nat :=
  if n < 128 then [n]
  else [128 + n / 16777216 % 128, n / 65536 % 256, n / 256 % 256, n % 256]

/-- Modelled from the spec: one encoded name/value pair — both length
fields, then the name bytes, then the value bytes. -/
def encodePair (p : List Nat × List Nat) : List Nat :=
  encodeLength p.1.length ++ encodeLength p.2.length ++ p.1 ++ p.2

/-- The encoded pairs of a stream, without the terminator. -/
def encodeBody (pairs : Params) : List Nat :=
  (pairs.map encodePair).flatten

/-- Modelled from the spec: `encodeNameValues(pairs)` — every pair in
order, then the terminating (0, 0) length pair. -/
def encodeNameValues (pairs : Params) : List Nat :=
  encodeBody pairs ++ [0, 0]

/-- The Python dict obtained by assigning every pair in order into a
fresh dict, exactly as `_decodeParams` builds `params`. -/
def pyDict (pairs : Params) : Params :=
  pairs.foldl (fun d p => dictSet d p.1 p.2) []

/-- A pair list the modelled encoder can represent: no pair collides
with the (0, 0) stream terminator and both lengths are encodable. -/
def Encodable (pairs : Params) : Prop :=
  ∀ p ∈ pairs, ¬(p.1 = [] ∧ p.2 = []) ∧
    p.1.length < 2147483648 ∧ p.2.length < 2147483648

instance (pairs : Params) : Decidable (Encodable pairs) := by
  unfold Encodable; infer_instance

theorem readLength_encode (n : Nat) (hn : n < 2147483648) (rest : List Nat) :
    readLength (encodeLength n ++ rest) = .ok (n, rest) := by
  by_cases h : n < 128
  · simp [encodeLength, readLength, h]
  · have h1 : ¬(128 + n / 16777216 % 128 < 128) := by omega
    simp only [encodeLength, if_neg h, List.cons_append, List.nil_append,
      readLength, if_neg h1]
    have hA : (128 + n / 16777216 % 128) % 128 * 16777216
        + n / 65536 % 256 * 65536 + n / 256 % 256 * 256 + n % 256 = n := by
      omega
    rw [hA]

theorem readLengths_encode (n v : Nat) (hn : n < 2147483648) (hv : v < 2147483648)
    (rest : List Nat) :
    readLengths (encodeLength n ++ (encodeLength v ++ rest)) = .ok (n, v, rest) := by
  simp only [readLengths, readLength_encode n hn, readLength_encode v hv]

theorem dictGet_dictSet (d : Params) (k v name : List Nat) :
    dictGet (dictSet d k v) name = if k = name then some v else dictGet d name := by
  induction d with
  | nil => simp [dictSet, dictGet]
  | cons p rest ih =>
    obtain ⟨k', v'⟩ := p
    by_cases hk : k' = k
    · subst hk
      simp only [dictSet, if_pos rfl, dictGet]
      split_ifs <;> rfl
    · simp only [dictSet, if_neg hk, dictGet, ih]
      split_ifs with h1 h2 <;> simp_all

theorem dictSet_fresh (d : Params) (k v : List Nat) (h : dictGet d k = none) :
    dictSet d k v = d ++ [(k, v)] := by
  induction d with
  | nil => rfl
  | cons p rest ih =>
    obtain ⟨k', v'⟩ := p
    simp only [dictGet] at h
    by_cases hk : k' = k
    · rw [if_pos hk] at h
      exact absurd h (by simp)
    · rw [if_neg hk] at h
      simp only [dictSet, if_neg hk, List.cons_append, ih h]

theorem dictGet_append_some (a b : Params) (name v : List Nat)
    (h : dictGet a name = some v) : dictGet (a ++ b) name = some v := by
  induction a with
  | nil => simp [dictGet] at h
  | cons p rest ih =>
    obtain ⟨k, w⟩ := p
    simp only [dictGet, List.cons_append] at h ⊢
    by_cases hk : k = name
    · rwa [if_pos hk] at h ⊢
    · rw [if_neg hk] at h ⊢
      exact ih h

theorem dictGet_append_none (a b : Params) (name : List Nat)
    (h : dictGet a name = none) : dictGet (a ++ b) name = dictGet b name := by
  induction a with
  | nil => simp
  | cons p rest ih =>
    obtain ⟨k, w⟩ := p
    simp only [dictGet, List.cons_append] at h ⊢
    by_cases hk : k = name
    · rw [if_pos hk] at h
      exact absurd h (by simp)
    · rw [if_neg hk] at h ⊢
      exact ih h

theorem dictGet_foldl (pairs : Params) :
    ∀ (d : Params) (name : List Nat),
      dictGet (pairs.foldl (fun d p => dictSet d p.1 p.2) d) name
        = match dictGet pairs.reverse name with
          | some v => some v
          | none => dictGet d name := by
  induction pairs with
  | nil => intro d name; simp [dictGet]
  | cons p rest ih =>
    intro d name
    obtain ⟨k, v⟩ := p
    simp only [List.foldl_cons, List.reverse_cons]
    rw [ih]
    cases hrev : dictGet rest.reverse name with
    | some w => rw [dictGet_append_some _ _ _ _ hrev]
    | none =>
      rw [dictGet_append_none _ _ _ hrev]
      simp only [dictGet_dictSet, dictGet]
      split_ifs <;> rfl

theorem encodePair_length_pos (p : List Nat × List Nat) : 1 ≤ (encodePair p).length := by
  unfold encodePair encodeLength
  split_ifs <;> simp

theorem encodeBody_length_ge (pairs : Params) :
    pairs.length ≤ (encodeBody pairs).length := by
  induction pairs with
  | nil => simp [encodeBody]
  | cons p rest ih =>
    simp only [encodeBody, List.map_cons, List.flatten_cons, List.length_append,
      List.length_cons]
    have := encodePair_length_pos p
    simp only [encodeBody] at ih
    omega

theorem decodeParamsGo_walk (pairs : Params) :
    ∀ (fuel : Nat) (suffix : List Nat) (acc : Params), Encodable pairs →
      decodeParamsGo (fuel + pairs.length) (encodeBody pairs ++ suffix) acc
        = decodeParamsGo fuel suffix (pairs.foldl (fun d p => dictSet d p.1 p.2) acc) := by
  induction pairs with
  | nil => intro fuel suffix acc _; simp [encodeBody]
  | cons p rest ih =>
    intro fuel suffix acc hp
    obtain ⟨k, v⟩ := p
    obtain ⟨hne, hk, hv⟩ := hp (k, v) (by simp)
    have hstream : encodeBody ((k, v) :: rest) ++ suffix
        = encodeLength k.length
            ++ (encodeLength v.length ++ (k ++ (v ++ (encodeBody rest ++ suffix)))) := by
      simp [encodeBody, encodePair, List.append_assoc]
    rw [hstream, List.length_cons, Nat.add_succ]
    simp only [decodeParamsGo, readLengths_encode k.length v.length hk hv]
    rw [if_neg (by simpa [List.length_eq_zero] using hne)]
    rw [List.take_left, List.drop_left, List.take_left, List.drop_left]
    rw [ih fuel suffix (dictSet acc k v) (fun q hq => hp q (by simp [hq]))]
    simp

theorem decodeParams_encode (pairs : Params) (hp : Encodable pairs) :
    decodeParams (encodeNameValues pairs) = .ok (pyDict pairs) := by
  unfold decodeParams encodeNameValues
  have hbody := encodeBody_length_ge pairs
  obtain ⟨f, hf, hfpos⟩ : ∃ f, (encodeBody pairs ++ [0, 0]).length + 1 = f + pairs.length
      ∧ 1 ≤ f :=
    ⟨(encodeBody pairs ++ [0, 0]).length + 1 - pairs.length,
     by simp only [List.length_append]; omega, by simp only [List.length_append]; omega⟩
  rw [hf, decodeParamsGo_walk pairs f [0, 0] [] hp]
  obtain ⟨g, rfl⟩ : ∃ g, f = g + 1 := ⟨f - 1, by omega⟩
  simp only [decodeParamsGo, show readLengths [0, 0] = Except.ok (0, 0, []) from rfl]
  simp [pyDict]

theorem foldl_dictSet_of_fresh (pairs : Params) :
    ∀ acc : Params, (∀ p ∈ pairs, dictGet acc p.1 = none) →
      pairs.Pairwise (fun p q => p.1 ≠ q.1) →
      pairs.foldl (fun d p => dictSet d p.1 p.2) acc = acc ++ pairs := by
  induction pairs with
  | nil => intro acc _ _; simp
  | cons p rest ih =>
    intro acc hfresh hnodup
    obtain ⟨k, v⟩ := p
    obtain ⟨hhead, htail⟩ := List.pairwise_cons.mp hnodup
    simp only [List.foldl_cons]
    rw [dictSet_fresh acc k v (hfresh (k, v) (by simp))]
    rw [ih (acc ++ [(k, v)]) ?_ htail]
    · simp
    · intro q hq
      rw [dictGet_append_none _ _ _ (hfresh q (by simp [hq]))]
      have hne := hhead q hq
      simp only [dictGet]
      rw [if_neg (by simpa using hne)]

end Fcgi

/-- C2 counterexample: the pair list `[("a", "1"), ("a", "2")]` (bytes
`[97]`, `[49]`, `[50]`) does not round-trip: `_decodeParams` stores the
pairs in a Python dict, so the duplicate name collapses to its last
value and the decoded result is `[("a", "2")]`, not the original
two-element list. -/
theorem c2_counterexample :
    decodeParams (encodeNameValues [([97], [49]), ([97], [50])])
        = .ok [([97], [50])] ∧
    ([([97], [50])] : Params) ≠ [([97], [49]), ([97], [50])] :=
  ⟨rfl, by decide⟩

/-- C2 amended: for every list of (name, value) byte-string pairs whose
names are pairwise distinct, with no pair equal to the empty-name/
empty-value terminator pair and with name and value lengths below 2^31
(which covers the boundary lengths 0, 127, 128 and 16384), decoding the
encoding returns exactly the original list as the ordered entries of
the resulting mapping. With duplicate names the round-trip fails,
because the decoder's dict keeps only the last value for a name. -/
theorem c2_decode_encode_roundtrip (pairs : Params) (hp : Encodable pairs)
    (hnodup : pairs.Pairwise (fun p q => p.1 ≠ q.1)) :
    decodeParams (encodeNameValues pairs) = .ok pairs := by
  have h1 := decodeParams_encode pairs hp
  have h2 : pyDict pairs = pairs := by
    have h3 := foldl_dictSet_of_fresh pairs [] (fun p _ => rfl) hnodup
    unfold pyDict
    simpa using h3
  rw [h2] at h1
  exact h1

set_option maxRecDepth 8000 in
/-- C2 witness: the amended round-trip applied to a concrete pair list
exercising a zero-length value, a zero-length name and a 128-byte name
(the 4-byte length encoding). -/
theorem c2_decode_encode_roundtrip_witness :
    decodeParams (encodeNameValues
        [([97], []), ([], [49]), (List.replicate 128 50, [51])])
      = .ok [([97], []), ([], [49]), (List.replicate 128 50, [51])] :=
  c2_decode_encode_roundtrip
    [([97], []), ([], [49]), (List.replicate 128 50, [51])]
    (by decide) (by decide)

/-- C4: decoding a params stream merges the pairs into a dict with
last-write-wins semantics: decoding the encoded stream of `pairs`
yields exactly the dict built by assigning every pair in order, and
looking up any name in that dict returns the value of the name's last
occurrence in the stream (first match in the reversed pair list) — in
particular the unique value of a name occurring exactly once. -/
theorem c4_params_last_write_wins (pairs : Params) (name : List Nat)
    (hp : Encodable pairs) :
    decodeParams (encodeNameValues pairs) = .ok (pyDict pairs) ∧
    dictGet (pyDict pairs) name = dictGet pairs.reverse name := by
  refine ⟨decodeParams_encode pairs hp, ?_⟩
  unfold pyDict
  rw [dictGet_foldl]
  cases dictGet pairs.reverse name <;> rfl

/-- C4 witness: the last-write-wins theorem applied to the concrete
stream `[("a", "1"), ("b", "2"), ("a", "3")]`, where looking up "a" in
the decoded params yields "3", the value of its last occurrence. -/
theorem c4_params_last_write_wins_witness :
    decodeParams (encodeNameValues [([97], [49]), ([98], [50]), ([97], [51])])
        = .ok (pyDict [([97], [49]), ([98], [50]), ([97], [51])]) ∧
    dictGet (pyDict [([97], [49]), ([98], [50]), ([97], [51])]) [97]
        = dictGet ([([97], [49]), ([98], [50]), ([97], [51])] : Params).reverse [97] :=
  c4_params_last_write_wins [([97], [49]), ([98], [50]), ([97], [51])] [97] (by decide)

/-- C5: a params stream that ends mid-pair — after a non-terminal
length pair declaring `n` name bytes and `v` value bytes but with fewer
than `n + v` bytes remaining — makes `_decodeParams` fail with
`ProtocolError(TruncatedStream)` instead of returning a result (the
short reads exhaust the stream and the next length read hits the end of
the stream). -/
theorem c5_truncated_stream (pairs : Params) (n v : Nat) (tail : List Nat)
    (hp : Encodable pairs) (hnz : ¬(n = 0 ∧ v = 0))
    (hn : n < 2147483648) (hv : v < 2147483648)
    (htail : tail.length < n + v) :
    decodeParams (encodeBody pairs ++ (encodeLength n ++ (encodeLength v ++ tail)))
      = .error .TruncatedStream := by
  unfold decodeParams
  have hbody := encodeBody_length_ge pairs
  obtain ⟨f, hf, hfpos⟩ : ∃ f,
      (encodeBody pairs ++ (encodeLength n ++ (encodeLength v ++ tail))).length + 1
        = f + pairs.length ∧ 2 ≤ f :=
    ⟨(encodeBody pairs ++ (encodeLength n ++ (encodeLength v ++ tail))).length + 1
        - pairs.length,
     by
       have h1 : 1 ≤ (encodeLength n).length := by
         unfold encodeLength; split_ifs <;> simp
       have h2 : 1 ≤ (encodeLength v).length := by
         unfold encodeLength; split_ifs <;> simp
       simp only [List.length_append]
       omega,
     by
       have h1 : 1 ≤ (encodeLength n).length := by
         unfold encodeLength; split_ifs <;> simp
       have h2 : 1 ≤ (encodeLength v).length := by
         unfold encodeLength; split_ifs <;> simp
       simp only [List.length_append]
       omega⟩
  rw [hf, decodeParamsGo_walk pairs f _ [] hp]
  obtain ⟨g, rfl⟩ : ∃ g, f = g + 1 + 1 := ⟨f - 2, by omega⟩
  simp only [decodeParamsGo, readLengths_encode n v hn hv]
  rw [if_neg hnz]
  rw [show (tail.drop n).drop v = [] from by
    rw [List.drop_drop, List.drop_eq_nil_iff]
    omega]
  rfl

/-- C5 witness: the truncation theorem applied to the concrete stream
`[2, 0, 97]` — a declared 2-byte name with only one byte available and
no terminator. -/
theorem c5_truncated_stream_witness :
    decodeParams (encodeBody [] ++ (encodeLength 2 ++ (encodeLength 0 ++ [97])))
      = .error .TruncatedStream :=
  c5_truncated_stream [] 2 0 [97] (by decide) (by decide) (by decide) (by decide)
    (by decide)

namespace Oauth

/-! ## OAuth state tokens (source: `generate_state`, `validate_state`)

Strings are modelled as `List Char`. The truncated SHA-256 hex digest
`hashlib.sha256(x.encode()).hexdigest()[:16]` is abstracted as a
function parameter `H` shared by both functions (its outputs are hex
characters, hence colon-free — a hypothesis where needed); the claims
depend only on both functions deriving the hash from the same
`random:timestamp` prefix, not on the internals of SHA-256. The bare
`except` of `validate_state` is modelled by returning `false` on parse
failure, so the model is total ("never raises"). -/

/-- Python's `s.split(':')`: split at every colon, keeping empty
segments. -/
def splitColon : List Char → List (List Char)
  | [] => [[]]
  | c :: cs =>
    if c = ':' then [] :: splitColon cs
    else
      match splitColon cs with
      | [] => [[c]]
      | g :: gs => (c :: g) :: gs

/-- Rejoin split segments with colons (`":".join`), the inverse used to
read back what a three-part split implies about the input string. -/
def joinColon : List (List Char) → List Char
  | [] => []
  | [g] => g
  | g :: gs => g ++ ':' :: joinColon gs

/-- The decimal digit character of `d` (for `d < 10`). -/
def digitChar : Nat → Char
  | 0 => '0'
  | 1 => '1'
  | 2 => '2'
  | 3 => '3'
  | 4 => '4'
  | 5 => '5'
  | 6 => '6'
  | 7 => '7'
  | 8 => '8'
  | _ => '9'

/-- Decimal digits of a natural number, accumulator form with fuel
(`str(int(time.time()))`); the fuel `n + 1` is never exhausted. -/
def natDigitsGo : Nat → Nat → List Char → List Char
  | 0, _, acc => acc
  | fuel + 1, n, acc =>
    if n < 10 then digitChar n :: acc
    else natDigitsGo fuel (n / 10) (digitChar (n % 10) :: acc)

/-- Python's `str(n)` for a natural number. -/
def natDigits (n : Nat) : List Char :=
  natDigitsGo (n + 1) n []

/-- Numeric value of a digit string. -/
def parseNatDigits (l : List Char) : Nat :=
  l.foldl (fun a c => a * 10 + (c.toNat - 48)) 0

/-- Parse a non-empty all-digit string, `none` otherwise. -/
def parseDigits? (l : List Char) : Option Nat :=
  if l = [] then none
  else if l.all Char.isDigit then some (parseNatDigits l) else none

/-- Python's `int(s)` on a string: optional leading minus then decimal
digits, `none` (an exception, caught by the caller's bare `except`) on
anything else. Python's additional acceptance of surrounding
whitespace, a leading plus and digit-group underscores is not
modelled; such strings are further timestamp spellings of the same
values. -/
def pyParseInt? (s : List Char) : Option Int :=
  match s with
  | [] => none
  | c :: rest =>
    if c = '-' then (parseDigits? rest).map (fun m => -(m : Int))
    else (parseDigits? (c :: rest)).map (fun m => (m : Int))

/-- The source's `generate_state` at time `t` with random part
`random_str` (drawn from letters and digits, hence colon-free):
`f"{random_str}:{timestamp}:{state_hash}"` where `state_hash` is the
truncated digest `H` of `f"{random_str}:{timestamp}"`. -/
def generate_state (H : List Char → List Char) (random_str : List Char) (t : Nat) :
    List Char :=
  random_str ++ (':' :: (natDigits t ++ (':' :: H (random_str ++ (':' :: natDigits t)))))

/-- The source's `validate_state` evaluated at time `now`: split on
colons, require exactly three parts, reject timestamps older than 600
seconds or unparsable (the bare `except` returns `False`), then compare
the received hash with the recomputed one. -/
def validate_state (H : List Char → List Char) (now : Nat) (received : List Char) :
    Bool :=
  match splitColon received with
  | [random_str, timestamp, received_hash] =>
    match pyParseInt? timestamp with
    | none => false
    | some ts =>
      if (now : Int) - ts > 600 then false
      else decide (received_hash = H (random_str ++ (':' :: timestamp)))
  | _ => false

theorem splitColon_cons_colon (cs : List Char) :
    splitColon (':' :: cs) = [] :: splitColon cs := by
  simp [splitColon]

theorem splitColon_cons_ne (c : Char) (cs : List Char) (hc : c ≠ ':') :
    splitColon (c :: cs) =
      match splitColon cs with
      | [] => [[c]]
      | g :: gs => (c :: g) :: gs := by
  simp [splitColon, hc]

theorem splitColon_ne_nil (s : List Char) : splitColon s ≠ [] := by
  induction s with
  | nil => simp [splitColon]
  | cons c cs ih =>
    by_cases h : c = ':'
    · subst h
      rw [splitColon_cons_colon]
      simp
    · rw [splitColon_cons_ne c cs h]
      cases hcs : splitColon cs with
      | nil => simp
      | cons g gs => simp

theorem splitColon_no_colon (a : List Char) (h : ':' ∉ a) : splitColon a = [a] := by
  induction a with
  | nil => rfl
  | cons c cs ih =>
    have hc : c ≠ ':' := fun hcc => h (by simp [hcc])
    have hcs : ':' ∉ cs := fun hm => h (by simp [hm])
    rw [splitColon_cons_ne c cs hc, ih hcs]

theorem splitColon_append (a rest : List Char) (h : ':' ∉ a) :
    splitColon (a ++ (':' :: rest)) = a :: splitColon rest := by
  induction a with
  | nil => simp [splitColon]
  | cons c cs ih =>
    have hc : c ≠ ':' := fun hcc => h (by simp [hcc])
    have hcs : ':' ∉ cs := fun hm => h (by simp [hm])
    show splitColon (c :: (cs ++ (':' :: rest))) = (c :: cs) :: splitColon rest
    rw [splitColon_cons_ne c _ hc, ih hcs]

theorem splitColon_parts_no_colon (s : List Char) :
    ∀ part ∈ splitColon s, ':' ∉ part := by
  induction s with
  | nil =>
    intro part hp
    simp [splitColon] at hp
    subst hp
    simp
  | cons c cs ih =>
    intro part hp
    by_cases h : c = ':'
    · subst h
      rw [splitColon_cons_colon] at hp
      simp only [List.mem_cons] at hp
      rcases hp with hp | hp
      · subst hp; simp
      · exact ih part hp
    · rw [splitColon_cons_ne c cs h] at hp
      cases hcs : splitColon cs with
      | nil => exact absurd hcs (splitColon_ne_nil cs)
      | cons g gs =>
        rw [hcs] at hp
        simp only [List.mem_cons] at hp
        rcases hp with hp | hp
        · subst hp
          intro hmem
          simp only [List.mem_cons] at hmem
          rcases hmem with hmem | hmem
          · exact h hmem.symm
          · exact ih g (by rw [hcs]; simp) hmem
        · exact ih part (by rw [hcs]; simp [hp])

theorem joinColon_splitColon (s : List Char) : joinColon (splitColon s) = s := by
  induction s with
  | nil => rfl
  | cons c cs ih =>
    by_cases h : c = ':'
    · subst h
      rw [splitColon_cons_colon]
      cases hcs : splitColon cs with
      | nil => exact absurd hcs (splitColon_ne_nil cs)
      | cons g gs =>
        have hj : joinColon ([] :: g :: gs) = ':' :: joinColon (g :: gs) := rfl
        rw [hcs] at ih
        rw [hj, ih]
    · rw [splitColon_cons_ne c cs h]
      cases hcs : splitColon cs with
      | nil => exact absurd hcs (splitColon_ne_nil cs)
      | cons g gs =>
        rw [hcs] at ih
        cases gs with
        | nil =>
          have hj2 : joinColon [g] = g := rfl
          rw [hj2] at ih
          show joinColon [c :: g] = c :: cs
          have hj1 : joinColon [c :: g] = c :: g := rfl
          rw [hj1, ih]
        | cons g2 gs2 =>
          have hj1 : joinColon ((c :: g) :: g2 :: gs2)
              = (c :: g) ++ (':' :: joinColon (g2 :: gs2)) := rfl
          have hj2 : joinColon (g :: g2 :: gs2)
              = g ++ (':' :: joinColon (g2 :: gs2)) := rfl
          rw [hj2] at ih
          show joinColon ((c :: g) :: g2 :: gs2) = c :: cs
          rw [hj1, List.cons_append, ih]

theorem digitChar_isDigit (d : Nat) (h : d < 10) : (digitChar d).isDigit = true := by
  interval_cases d <;> decide

theorem digitChar_toNat (d : Nat) (h : d < 10) : (digitChar d).toNat = 48 + d := by
  interval_cases d <;> decide

theorem isDigit_ne_colon (c : Char) (h : c.isDigit = true) : c ≠ ':' := by
  intro hc
  subst hc
  exact absurd h (by decide)

theorem natDigitsGo_acc (fuel : Nat) :
    ∀ (n : Nat) (acc : List Char),
      natDigitsGo fuel n acc = natDigitsGo fuel n [] ++ acc := by
  induction fuel with
  | zero => intro n acc; rfl
  | succ fuel ih =>
    intro n acc
    by_cases h : n < 10
    · simp [natDigitsGo, h]
    · simp only [natDigitsGo, if_neg h]
      rw [ih (n / 10) (digitChar (n % 10) :: acc), ih (n / 10) [digitChar (n % 10)]]
      simp

theorem natDigitsGo_all_digits (fuel : Nat) :
    ∀ n, ∀ c ∈ natDigitsGo fuel n [], c.isDigit = true := by
  induction fuel with
  | zero => intro n c hc; simp [natDigitsGo] at hc
  | succ fuel ih =>
    intro n c hc
    by_cases h : n < 10
    · simp only [natDigitsGo, if_pos h, List.mem_singleton] at hc
      subst hc
      exact digitChar_isDigit n h
    · simp only [natDigitsGo, if_neg h] at hc
      rw [natDigitsGo_acc] at hc
      simp only [List.mem_append, List.mem_singleton] at hc
      rcases hc with hc | hc
      · exact ih (n / 10) c hc
      · subst hc
        exact digitChar_isDigit _ (Nat.mod_lt _ (by omega))

theorem natDigits_ne_nil (n : Nat) : natDigits n ≠ [] := by
  unfold natDigits
  by_cases h : n < 10
  · simp [natDigitsGo, h]
  · simp only [natDigitsGo, if_neg h]
    rw [natDigitsGo_acc]
    simp

theorem parseNatDigits_go (fuel : Nat) :
    ∀ n, n < fuel → parseNatDigits (natDigitsGo fuel n []) = n := by
  induction fuel with
  | zero => intro n h; omega
  | succ fuel ih =>
    intro n h
    by_cases h10 : n < 10
    · simp only [natDigitsGo, if_pos h10, parseNatDigits, List.foldl_cons,
        List.foldl_nil, digitChar_toNat n h10]
      omega
    · simp only [natDigitsGo, if_neg h10]
      rw [natDigitsGo_acc]
      unfold parseNatDigits
      rw [List.foldl_append]
      have hr := ih (n / 10) (by omega)
      unfold parseNatDigits at hr
      simp only [List.foldl_cons, List.foldl_nil]
      rw [hr, digitChar_toNat (n % 10) (Nat.mod_lt _ (by omega))]
      omega

theorem natDigits_all_digits (n : Nat) : ∀ c ∈ natDigits n, c.isDigit = true :=
  natDigitsGo_all_digits (n + 1) n

theorem parseNatDigits_natDigits (n : Nat) : parseNatDigits (natDigits n) = n :=
  parseNatDigits_go (n + 1) n (by omega)

theorem natDigits_no_colon (n : Nat) : ':' ∉ natDigits n := fun h =>
  isDigit_ne_colon ':' (natDigits_all_digits n ':' h) rfl

theorem pyParseInt_natDigits (n : Nat) : pyParseInt? (natDigits n) = some (n : Int) := by
  have hne := natDigits_ne_nil n
  cases hd : natDigits n with
  | nil => exact absurd hd hne
  | cons c rest =>
    have hdig : c.isDigit = true := natDigits_all_digits n c (by rw [hd]; simp)
    have hcm : c ≠ '-' := by
      intro hc
      subst hc
      exact absurd hdig (by decide)
    have hall : (c :: rest).all Char.isDigit = true := by
      rw [← hd, List.all_eq_true]
      exact fun x hx => natDigits_all_digits n x hx
    simp only [pyParseInt?, if_neg hcm, parseDigits?,
      if_neg (by simp : ¬(c :: rest = [])), hall, if_pos rfl]
    rw [← hd, parseNatDigits_natDigits]
    rfl

end Oauth

open Oauth

/-- C10: every token produced by `generate_state` with random part
`random_str` (colon-free, as drawn from letters and digits) at time `t`
validates at any time `now` at most 600 seconds later; and whenever
`validate_state` returns `true` (it is total, so it never raises), the
received string is of the three-part `random:timestamp:hash` form with
colon-free parts, a parsable timestamp at most 600 seconds old, and a
hash matching the one recomputed from the first two parts — so every
string outside that form, or with a stale timestamp, yields `false`.
The truncated SHA-256 digest is abstracted as the shared colon-free
function `H`. -/
theorem c10_state_token (H : List Char → List Char) (random_str : List Char)
    (t now : Nat) (hr : ':' ∉ random_str) (hH : ∀ s, ':' ∉ H s)
    (hfresh : now ≤ t + 600) :
    validate_state H now (generate_state H random_str t) = true ∧
    (∀ s : List Char, validate_state H now s = true →
      ∃ (rs ts hh : List Char) (m : Int),
        s = rs ++ (':' :: (ts ++ (':' :: hh))) ∧ ':' ∉ rs ∧ ':' ∉ ts ∧ ':' ∉ hh ∧
        pyParseInt? ts = some m ∧ (now : Int) - m ≤ 600 ∧
        hh = H (rs ++ (':' :: ts))) := by
  constructor
  · unfold generate_state validate_state
    rw [splitColon_append random_str _ hr,
      splitColon_append (natDigits t) _ (natDigits_no_colon t),
      splitColon_no_colon _ (hH (random_str ++ (':' :: natDigits t)))]
    simp only [pyParseInt_natDigits t]
    rw [if_neg (by omega)]
    simp
  · intro s hs
    unfold validate_state at hs
    cases hsp : splitColon s with
    | nil => exact absurd hsp (splitColon_ne_nil s)
    | cons rs rest1 =>
      cases rest1 with
      | nil => simp [hsp] at hs
      | cons ts rest2 =>
        cases rest2 with
        | nil => simp [hsp] at hs
        | cons hh rest3 =>
          cases rest3 with
          | cons x xs => simp [hsp] at hs
          | nil =>
            simp only [hsp] at hs
            cases hts : pyParseInt? ts with
            | none => simp [hts] at hs
            | some m =>
              simp only [hts] at hs
              by_cases hfr : (now : Int) - m > 600
              · rw [if_pos hfr] at hs
                exact absurd hs (by simp)
              · rw [if_neg hfr] at hs
                have hhash : hh = H (rs ++ (':' :: ts)) := of_decide_eq_true hs
                have hjoin := joinColon_splitColon s
                rw [hsp] at hjoin
                have hparts := splitColon_parts_no_colon s
                rw [hsp] at hparts
                have hshape : joinColon [rs, ts, hh]
                    = rs ++ (':' :: (ts ++ (':' :: hh))) := rfl
                refine ⟨rs, ts, hh, m, ?_, ?_, ?_, ?_, hts, by omega, hhash⟩
                · rw [← hjoin, hshape]
                · exact hparts rs (by simp)
                · exact hparts ts (by simp)
                · exact hparts hh (by simp)

/-- C10 witness: a token generated at time 1000 with random part "ab"
under the concrete hash function mapping everything to "h" validates
600 seconds later. -/
theorem c10_state_token_witness :
    validate_state (fun _ => ['h']) 1600
        (generate_state (fun _ => ['h']) ['a', 'b'] 1000) = true :=
  (c10_state_token (fun _ => ['h']) ['a', 'b'] 1000 1600 (by decide)
    (fun _ => (by decide : ':' ∉ (['h'] : List Char))) (by omega)).1
